import Mathlib

/-!
# Lunch place model: eligibility, selection and visit/skip transitions

A shallow embedding of `model/places.go`.

* Instants (`time.Time`) are integers: nanoseconds counted from the zero instant
  (`time.Time{}`), so `Before` is `<` and `Add` is `+`.
* `time.Now()` is an explicit sequence of readings `clock : Nat → Time`; the k-th
  call made by an operation reads `clock k`.
* `rand.Intn` is an explicit sequence of draws; the i-th call `rand.Intn(n)`
  yields `draws i % n`, so every sequence is admissible and every value of
  `[0, n)` can occur.
* The `places` collection is the list of its documents in natural order; every
  storage call takes a flag saying whether the storage layer fails on that call.
  A document is read back as it was written: the BSON encoding of a record is
  not part of the model.
* Calls run one at a time: a call sees the collection left by the previous one.
-/

namespace Lunch

/-! ## Time -/

/-- An instant, in nanoseconds since the zero instant of `time.Time`. -/
abbrev Time := Int

/-- A `time.Duration`, in nanoseconds. -/
abbrev Duration := Int

/-- The constant `time.Hour`. -/
def Hour : Duration := 3600000000000

/-- The zero instant `time.Time{}`, the value of a timestamp never set. -/
def zeroTime : Time := 0

/-- The Unix epoch, 1970-01-01T00:00:00Z: 62135596800 seconds after the zero
instant. The system clock read by `time.Now()` counts from it, so no reading
is earlier. -/
def unixEpoch : Time := 62135596800 * 1000000000

/-- The method `t.Add(d)`. -/
def Time.Add (t : Time) (d : Duration) : Time := t + d

/-- The method `t.Before(u)`: `t` is strictly earlier than `u`. -/
def Time.Before (t u : Time) : Bool := decide (t < u)

/-! ## Records -/

/-- A `bson.ObjectId`, represented by its canonical (lower-case) hex form. -/
abbrev ObjectId := String

/-- Modelled from the spec: the `Place` record, whose declaration is not in
`places.go`. Fields as in section 3 of the specification: identifier, owning team,
name, the two timestamps and the two counters (which start at 0 and whose
machine width is not given, so they are natural numbers). -/
structure Place where
  ID : ObjectId
  TeamID : String
  Name : String
  LastVisited : Time
  LastSkipped : Time
  VisitCount : Nat
  SkipCount : Nat
deriving DecidableEq, Repr

/-- The function `bson.IsObjectIdHex`: 24 hexadecimal digits. -/
def IsObjectIdHex (s : String) : Bool :=
  s.length == 24 &&
    s.toList.all (fun c => c.isDigit || ('a' ≤ c && c ≤ 'f') || ('A' ≤ c && c ≤ 'F'))

/-- The function `bson.ObjectIdHex`: decodes a hex string, `none` standing for
its panic on input that is not 24 hexadecimal digits. -/
def ObjectIdHex (s : String) : Option ObjectId :=
  if IsObjectIdHex s then some (String.mk (s.toList.map Char.toLower)) else none

/-! ## Results -/

/-- How a call can fail: with a returned `error` (built by `fmt.Errorf`, so
identified by its message) or with a run-time panic. -/
inductive Failure where
  | error (msg : String)
  | panic (msg : String)
deriving DecidableEq, Repr

/-- The error returned for a storage failure. -/
def databaseError : Failure := .error "Database error"

/-- The error `ProposePlace` returns when no place is eligible. -/
def emptyCandidatesError : Failure :=
  .error "There are no places that haven't been skipped or visited recently"

/-- The error returned when the storage layer reports `mgo.ErrNotFound` on a write. -/
def notFoundError : Failure := .error "Place not found"

/-- The error returned by `UpdatePlace` and `VisitPlace` on a duplicate key. -/
def conflictThatError : Failure := .error "A place with that name already exists"

/-- The error returned by `AddPlace` and `SkipPlace` on a duplicate key. -/
def conflictThisError : Failure := .error "A place with this name already exists"

/-! ## The storage collaborator (`mgo` collection) -/

/-- The errors of the storage layer: `mgo.ErrNotFound`, a duplicate-key error
(`mgo.IsDup`), and any other failure. -/
inductive MgoErr where
  | ErrNotFound
  | Dup
  | Other
deriving DecidableEq, Repr

/-- The predicate `mgo.IsDup`. -/
def IsDup (e : MgoErr) : Bool := e == .Dup

/-- The documents of the `places` collection, in natural order. -/
abbrev Collection := List Place

/-- Modelled from the spec: `c.Find(sel).All(&result)`, the `findAll` of section 6. -/
def findAll (c : Collection) (fault : Bool) (sel : Place → Bool) : Except MgoErr (List Place) :=
  if fault then .error .Other else .ok (c.filter sel)

/-- Modelled from the spec: `c.Find(sel).One(&result)`, the `findOne` of section 6. -/
def findOne (c : Collection) (fault : Bool) (sel : Place → Bool) : Except MgoErr Place :=
  if fault then .error .Other
  else match c.find? sel with
    | some p => .ok p
    | none => .error .ErrNotFound

/-- Replaces the first document selected by `sel` with its image under `f`. -/
def modifyFirst (sel : Place → Bool) (f : Place → Place) : List Place → List Place
  | [] => []
  | d :: ds => if sel d then f d :: ds else d :: modifyFirst sel f ds

/-- Removes the first document selected by `sel`. -/
def removeFirst (sel : Place → Bool) : List Place → List Place
  | [] => []
  | d :: ds => if sel d then ds else d :: removeFirst sel ds

/-- Whether a document other than the one with identifier `self` already has
the pair `(name, teamID)` of `d`: the unique index on `(name, teamid)`. -/
def nameTaken (c : Collection) (self : ObjectId) (d : Place) : Bool :=
  c.any (fun e => e.ID != self && e.Name == d.Name && e.TeamID == d.TeamID)

/-- Modelled from the spec: `c.Insert(doc)`, the `insert` of section 6. A
duplicate-key error arises from the primary key `_id` or from the unique index
on `(name, teamid)`. -/
def insert (c : Collection) (fault : Bool) (d : Place) : Except MgoErr Collection :=
  if fault then .error .Other
  else if c.any (fun e => e.ID == d.ID || (e.Name == d.Name && e.TeamID == d.TeamID)) then
    .error .Dup
  else .ok (c ++ [d])

/-- Modelled from the spec: `c.Update(sel, change)`, the `replace` of section 6:
the first document selected is changed by `f`; the identifier is immutable and
the unique index on `(name, teamid)` is enforced. -/
def update (c : Collection) (fault : Bool) (sel : Place → Bool) (f : Place → Place) :
    Except MgoErr Collection :=
  if fault then .error .Other
  else match c.find? sel with
    | none => .error .ErrNotFound
    | some old =>
      if (f old).ID != old.ID then .error .Other
      else if nameTaken c old.ID (f old) then .error .Dup
      else .ok (modifyFirst sel f c)

/-- Modelled from the spec: `c.Remove(sel)`, the `delete` of section 6. -/
def remove (c : Collection) (fault : Bool) (sel : Place → Bool) : Except MgoErr Collection :=
  if fault then .error .Other
  else match c.find? sel with
    | none => .error .ErrNotFound
    | some _ => .ok (removeFirst sel c)

/-! ## Eligibility filter and selector -/

/-- One iteration of the loop of `onlyProposablePlaces`: the state is the slice
built so far and the number of clock readings made. The second reading is made
only when the first test passes (`&&` short-circuits). -/
def onlyProposableStep (clock : Nat → Time) (st : List Place × Nat) (v : Place) :
    List Place × Nat :=
  if v.LastSkipped.Before ((clock st.2).Add (-Hour * 6)) then
    if v.LastVisited.Before ((clock (st.2 + 1)).Add (-Hour * 72)) then
      (st.1 ++ [v], st.2 + 2)
    else (st.1, st.2 + 2)
  else (st.1, st.2 + 1)

/-- The function `onlyProposablePlaces`. -/
def onlyProposablePlaces (clock : Nat → Time) (vs : List Place) : List Place :=
  (vs.foldl (onlyProposableStep clock) ([], 0)).1

/-- The function `rand.Intn` on a raw draw: a value of `[0, n)`. -/
def Intn (raw n : Nat) : Nat := raw % n

/-- The assignment `vs[i], vs[j] = vs[j], vs[i]`. Both indices are in range at
every call made by `sortProposablePlaces`. -/
def swap (vs : List Place) (i j : Nat) : List Place :=
  match vs[i]?, vs[j]? with
  | some a, some b => (vs.set i b).set j a
  | _, _ => vs

/-- The first `k` iterations of the loop of `sortProposablePlaces`. -/
def shuffleSteps (draws : Nat → Nat) (vs : List Place) (k : Nat) : List Place :=
  (List.range k).foldl (fun acc i => swap acc i (Intn (draws i) (i + 1))) vs

/-- The function `sortProposablePlaces`. -/
def sortProposablePlaces (draws : Nat → Nat) (vs : List Place) : List Place :=
  shuffleSteps draws vs vs.length

/-! ## Operations of `Places` -/

/-- The method `AllPlaces`. -/
def AllPlaces (c : Collection) (fault : Bool) (teamID : String) : Except Failure (List Place) :=
  match findAll c fault (fun p => p.TeamID == teamID) with
  | .error _ => .error databaseError
  | .ok thePlaces => .ok thePlaces

/-- The method `FindByID`. -/
def FindByID (c : Collection) (fault : Bool) (teamID id : String) : Except Failure Place :=
  match ObjectIdHex id with
  | none => .error (.panic "invalid input to ObjectIdHex")
  | some oid =>
    match findOne c fault (fun p => p.TeamID == teamID && p.ID == oid) with
    | .error _ => .error databaseError
    | .ok place => .ok place

/-- The method `ProposePlace`. It only reads the collection. -/
def ProposePlace (c : Collection) (fault : Bool) (clock : Nat → Time) (draws : Nat → Nat)
    (teamID : String) : Except Failure Place :=
  match findAll c fault (fun p => p.TeamID == teamID) with
  | .error _ => .error databaseError
  | .ok allPlaces =>
    let eligible := onlyProposablePlaces clock allPlaces
    if eligible.length = 0 then .error emptyCandidatesError
    else
      match (sortProposablePlaces draws eligible)[0]? with
      | some place => .ok place
      | none => .error (.panic "index out of range")

/-- The method `AddPlace`: the result and the collection afterwards. -/
def AddPlace (c : Collection) (fault : Bool) (place : Place) : Except Failure String × Collection :=
  match insert c fault place with
  | .error e =>
    if IsDup e then (.error conflictThisError, c)
    else (.error databaseError, c)
  | .ok c1 => (.ok place.ID, c1)

/-- The field updates `UpdatePlace` passes to `$set`, restricted to the fields
of a `Place` other than the immutable identifier: a field is set when present. -/
structure Updates where
  TeamID : Option String
  Name : Option String
  LastVisited : Option Time
  LastSkipped : Option Time
  VisitCount : Option Nat
  SkipCount : Option Nat
deriving DecidableEq, Repr

/-- The effect of `$set` with the given field updates on one document. -/
def Updates.apply (u : Updates) (p : Place) : Place where
  ID := p.ID
  TeamID := u.TeamID.getD p.TeamID
  Name := u.Name.getD p.Name
  LastVisited := u.LastVisited.getD p.LastVisited
  LastSkipped := u.LastSkipped.getD p.LastSkipped
  VisitCount := u.VisitCount.getD p.VisitCount
  SkipCount := u.SkipCount.getD p.SkipCount

/-- Maps the error of a write (`c.Update`) as `UpdatePlace` and `VisitPlace` do. -/
def writeError (e : MgoErr) : Failure :=
  if IsDup e then conflictThatError
  else match e with
    | .ErrNotFound => notFoundError
    | _ => databaseError

/-- Maps the error of the write of `SkipPlace`, whose duplicate-key message differs. -/
def skipWriteError (e : MgoErr) : Failure :=
  if IsDup e then conflictThisError
  else match e with
    | .ErrNotFound => notFoundError
    | _ => databaseError

/-- The method `UpdatePlace`: the result and the collection afterwards. -/
def UpdatePlace (c : Collection) (fault : Bool) (teamID id : String) (updates : Updates) :
    Except Failure Unit × Collection :=
  match ObjectIdHex id with
  | none => (.error (.panic "invalid input to ObjectIdHex"), c)
  | some oid =>
    match update c fault (fun p => p.ID == oid && p.TeamID == teamID) updates.apply with
    | .error e => (.error (writeError e), c)
    | .ok c1 => (.ok (), c1)

/-- The method `VisitPlace`: the result and the collection afterwards. The read
and the write each have their own fault flag; the clock is read once. -/
def VisitPlace (c : Collection) (findFault updateFault : Bool) (clock : Nat → Time)
    (teamID id : String) : Except Failure Place × Collection :=
  match ObjectIdHex id with
  | none => (.error (.panic "invalid input to ObjectIdHex"), c)
  | some oid =>
    match findOne c findFault (fun p => p.TeamID == teamID && p.ID == oid) with
    | .error _ => (.error databaseError, c)
    | .ok found =>
      let place : Place :=
        { found with LastVisited := clock 0, VisitCount := found.VisitCount + 1 }
      match update c updateFault (fun p => p.ID == oid) (fun _ => place) with
      | .error e => (.error (writeError e), c)
      | .ok c1 => (.ok place, c1)

/-- The method `SkipPlace`: the result and the collection afterwards. -/
def SkipPlace (c : Collection) (findFault updateFault : Bool) (clock : Nat → Time)
    (teamID id : String) : Except Failure Unit × Collection :=
  match ObjectIdHex id with
  | none => (.error (.panic "invalid input to ObjectIdHex"), c)
  | some oid =>
    match findOne c findFault (fun p => p.TeamID == teamID && p.ID == oid) with
    | .error _ => (.error databaseError, c)
    | .ok found =>
      let place : Place :=
        { found with LastSkipped := clock 0, SkipCount := found.SkipCount + 1 }
      match update c updateFault (fun p => p.ID == oid) (fun _ => place) with
      | .error e => (.error (skipWriteError e), c)
      | .ok c1 => (.ok (), c1)

/-- The method `DeletePlace`: the result and the collection afterwards. -/
def DeletePlace (c : Collection) (fault : Bool) (teamID id : String) :
    Except Failure Unit × Collection :=
  match ObjectIdHex id with
  | none => (.error (.panic "invalid input to ObjectIdHex"), c)
  | some oid =>
    match remove c fault (fun p => p.TeamID == teamID && p.ID == oid) with
    | .error .ErrNotFound => (.error notFoundError, c)
    | .error _ => (.error databaseError, c)
    | .ok c1 => (.ok (), c1)

/-- The data-model invariant kept by the primary key: identifiers are unique. -/
def UniqueIDs (c : Collection) : Prop := (c.map (fun p => p.ID)).Nodup

instance (c : Collection) : Decidable (UniqueIDs c) := by
  unfold UniqueIDs; infer_instance

/-- The eligibility predicate as the specification words it: not skipped within
the last 6 hours and not visited within the last 72 hours, both strictly. -/
def Eligible (now : Time) (p : Place) : Prop :=
  p.LastSkipped < now - 6 * Hour ∧ p.LastVisited < now - 72 * Hour

instance (now : Time) (p : Place) : Decidable (Eligible now p) := by
  unfold Eligible; infer_instance

/-! ## Operations as data -/

/-- One call of a mutating or proposing operation of the model, with its
arguments and what the environment does during the call (storage faults, clock
readings, random draws). -/
inductive Op where
  | add (fault : Bool) (place : Place)
  | update (fault : Bool) (teamID id : String) (updates : Updates)
  | visit (findFault updateFault : Bool) (clock : Nat → Time) (teamID id : String)
  | skip (findFault updateFault : Bool) (clock : Nat → Time) (teamID id : String)
  | delete (fault : Bool) (teamID id : String)
  | propose (fault : Bool) (clock : Nat → Time) (draws : Nat → Nat) (teamID : String)

/-- The collection after the call `op` on the collection `c`. -/
def collectionAfter (c : Collection) : Op → Collection
  | .add fault place => (AddPlace c fault place).2
  | .update fault teamID id updates => (UpdatePlace c fault teamID id updates).2
  | .visit findFault updateFault clock teamID id =>
    (VisitPlace c findFault updateFault clock teamID id).2
  | .skip findFault updateFault clock teamID id =>
    (SkipPlace c findFault updateFault clock teamID id).2
  | .delete fault teamID id => (DeletePlace c fault teamID id).2
  | .propose _ _ _ _ => c

/-- The call is not an `UpdatePlace` whose field updates name `visitCount` or
`skipCount`. -/
def leavesCounters : Op → Prop
  | .update _ _ _ updates => updates.VisitCount = none ∧ updates.SkipCount = none
  | _ => True

/-- Every place present in `c` and, under the same identifier, in `c1` has in
`c1` counters at least as large as in `c`. -/
def CountersKept (c c1 : Collection) : Prop :=
  ∀ p ∈ c, ∀ q ∈ c1, p.ID = q.ID → p.VisitCount ≤ q.VisitCount ∧ p.SkipCount ≤ q.SkipCount

/-! ## Draw sequences -/

/-- All the sequences `(j_0, ..., j_{n-1})` of draws with `0 ≤ j_i ≤ i`: the
possible outcomes of the `n` calls `rand.Intn(i + 1)` of `sortProposablePlaces`. -/
def drawSeqs : Nat → List (List Nat)
  | 0 => [[]]
  | n + 1 => (drawSeqs n).flatMap (fun ds => (List.range (n + 1)).map (fun j => ds ++ [j]))

/-- A finite sequence of draws as a source of draws. -/
def drawsOf (ds : List Nat) : Nat → Nat := fun i => ds.getD i 0

/-- The outcomes, among all draw sequences for a slice `vs`, that leave the
place `p` at index 0 after `sortProposablePlaces`. -/
def drawsLeavingFirst (vs : List Place) (p : Place) : List (List Nat) :=
  (drawSeqs vs.length).filter
    (fun ds => decide ((sortProposablePlaces (drawsOf ds) vs)[0]? = some p))

/-! ## Sample data -/

/-- A freshly created place of team `T1`: both timestamps at the zero instant,
both counters at 0. -/
def deli : Place :=
  ⟨"5f0000000000000000000001", "T1", "Deli", zeroTime, zeroTime, 0, 0⟩

/-- A second place of team `T1`, already visited five times and skipped twice. -/
def cafe : Place :=
  ⟨"5f0000000000000000000002", "T1", "Cafe", 1000, 2000, 5, 2⟩

/-- A place of another team, `T2`. -/
def diner : Place :=
  ⟨"5f0000000000000000000003", "T2", "Diner", zeroTime, zeroTime, 0, 0⟩

/-- An instant well after the zero instant: 1000 hours after it. -/
def noon : Time := 1000 * Hour

/-! ## Eligibility filter -/

/-- With a clock that reads `now` at every call, one loop iteration appends the
place exactly when it is eligible. -/
theorem onlyProposableStep_const (now : Time) (st : List Place × Nat) (v : Place) :
    (onlyProposableStep (fun _ => now) st v).1 =
      st.1 ++ (if Eligible now v then [v] else []) := by
  have e1 : ∀ t : Time, v.LastSkipped.Before (t.Add (-Hour * 6)) = true ↔
      v.LastSkipped < t - 6 * Hour := by
    intro t
    unfold Time.Before Time.Add
    rw [decide_eq_true_eq]
    constructor <;> intro h <;> linarith
  have e2 : ∀ t : Time, v.LastVisited.Before (t.Add (-Hour * 72)) = true ↔
      v.LastVisited < t - 72 * Hour := by
    intro t
    unfold Time.Before Time.Add
    rw [decide_eq_true_eq]
    constructor <;> intro h <;> linarith
  unfold onlyProposableStep Eligible
  by_cases h1 : v.LastSkipped < now - 6 * Hour
  · by_cases h2 : v.LastVisited < now - 72 * Hour
    · rw [if_pos ((e1 now).2 h1), if_pos ((e2 now).2 h2), if_pos ⟨h1, h2⟩]
    · rw [if_pos ((e1 now).2 h1), if_neg (fun h => h2 ((e2 now).1 h)), if_neg (fun h => h2 h.2)]
      simp
  · rw [if_neg (fun h => h1 ((e1 now).1 h)), if_neg (fun h => h1 h.1)]
    simp

/-- The loop of `onlyProposablePlaces` from any intermediate state, under a
constant clock. -/
theorem foldl_onlyProposableStep_const (now : Time) (vs : List Place) (st : List Place × Nat) :
    (vs.foldl (onlyProposableStep (fun _ => now)) st).1 =
      st.1 ++ vs.filter (fun p => decide (Eligible now p)) := by
  induction vs generalizing st with
  | nil => simp
  | cons v vs ih =>
    rw [List.foldl_cons, ih, onlyProposableStep_const]
    by_cases h : Eligible now v <;> simp [List.filter_cons, h]

/-- Under a constant clock `onlyProposablePlaces` keeps the eligible places. -/
theorem onlyProposablePlaces_const (vs : List Place) (now : Time) :
    onlyProposablePlaces (fun _ => now) vs = vs.filter (fun p => decide (Eligible now p)) := by
  unfold onlyProposablePlaces
  rw [foldl_onlyProposableStep_const]
  simp

/-- C1: at a single instant `now`, `onlyProposablePlaces` is the filter of its
input (order and multiplicity kept) by the predicate
`LastSkipped < now - 6h` and `LastVisited < now - 72h`, both strict. -/
theorem onlyProposablePlaces_eq_filter (vs : List Place) (now : Time) :
    onlyProposablePlaces (fun _ => now) vs =
      vs.filter (fun p => decide (p.LastSkipped < now - 6 * Hour ∧
        p.LastVisited < now - 72 * Hour)) := by
  unfold onlyProposablePlaces
  rw [foldl_onlyProposableStep_const]
  simp [Eligible]

/-! ## Selector -/

/-- A swap keeps the length of the slice. -/
theorem length_swap (vs : List Place) (i j : Nat) : (swap vs i j).length = vs.length := by
  unfold swap
  split <;> simp

/-- A swap introduces no new element. -/
theorem mem_of_mem_swap (vs : List Place) (i j : Nat) (x : Place) (hx : x ∈ swap vs i j) :
    x ∈ vs := by
  unfold swap at hx
  split at hx
  · rename_i a b ha hb
    rcases List.mem_or_eq_of_mem_set hx with h | h
    · rcases List.mem_or_eq_of_mem_set h with h | h
      · exact h
      · subst h
        exact List.getElem?_mem hb
    · subst h
      exact List.getElem?_mem ha
  · exact hx

/-- The shuffle keeps the length of the slice. -/
theorem length_shuffleSteps (draws : Nat → Nat) (vs : List Place) (k : Nat) :
    (shuffleSteps draws vs k).length = vs.length := by
  induction k with
  | zero => simp [shuffleSteps]
  | succ k ih =>
    unfold shuffleSteps at ih ⊢
    rw [List.range_succ, List.foldl_append]
    simp only [List.foldl_cons, List.foldl_nil]
    rw [length_swap, ih]

/-- The shuffle introduces no new element. -/
theorem mem_of_mem_shuffleSteps (draws : Nat → Nat) (vs : List Place) (k : Nat) (x : Place)
    (hx : x ∈ shuffleSteps draws vs k) : x ∈ vs := by
  induction k generalizing x with
  | zero => simpa [shuffleSteps] using hx
  | succ k ih =>
    unfold shuffleSteps at ih hx
    rw [List.range_succ, List.foldl_append] at hx
    simp only [List.foldl_cons, List.foldl_nil] at hx
    exact ih x (mem_of_mem_swap _ _ _ x hx)

/-! ## ProposePlace -/

/-- With a successful read and a constant clock, `ProposePlace` works on the
eligible places of the team. -/
theorem ProposePlace_const (c : Collection) (now : Time) (draws : Nat → Nat) (teamID : String) :
    ProposePlace c false (fun _ => now) draws teamID =
      (let eligible := (c.filter (fun p => p.TeamID == teamID)).filter
          (fun p => decide (Eligible now p))
       if eligible.length = 0 then .error emptyCandidatesError
       else match (sortProposablePlaces draws eligible)[0]? with
         | some place => .ok place
         | none => .error (.panic "index out of range")) := by
  unfold ProposePlace findAll
  simp only [Bool.false_eq_true, if_false]
  rw [onlyProposablePlaces_const]


/-- C2: when the read succeeds and some place of the team is eligible at `now`,
`ProposePlace` succeeds, whatever the random draws, and returns a stored record
of the team that is eligible at `now`, that is, a member of the eligible subset. -/
theorem ProposePlace_returns_eligible (c : Collection) (now : Time) (draws : Nat → Nat)
    (teamID : String) (h : ∃ p ∈ c, p.TeamID = teamID ∧ Eligible now p) :
    ∃ p, ProposePlace c false (fun _ => now) draws teamID = .ok p ∧
      p ∈ onlyProposablePlaces (fun _ => now) (c.filter (fun q => q.TeamID == teamID)) ∧
      p ∈ c ∧ p.TeamID = teamID ∧ Eligible now p := by
  obtain ⟨q, hqc, hqt, hqe⟩ := h
  have hq : q ∈ (c.filter (fun p => p.TeamID == teamID)).filter
      (fun p => decide (Eligible now p)) := by
    simp [List.mem_filter, hqc, hqt, hqe]
  have hlen : 0 < ((c.filter (fun p => p.TeamID == teamID)).filter
      (fun p => decide (Eligible now p))).length := List.length_pos_of_mem hq
  have hlen2 : 0 < (sortProposablePlaces draws ((c.filter (fun p => p.TeamID == teamID)).filter
      (fun p => decide (Eligible now p)))).length := by
    unfold sortProposablePlaces
    rw [length_shuffleSteps]
    exact hlen
  refine ⟨(sortProposablePlaces draws ((c.filter (fun p => p.TeamID == teamID)).filter
      (fun p => decide (Eligible now p))))[0], ?_, ?_⟩
  · rw [ProposePlace_const]
    simp only []
    rw [if_neg (Nat.pos_iff_ne_zero.mp hlen), List.getElem?_eq_getElem hlen2]
  · have hm := mem_of_mem_shuffleSteps draws _ _ _ (List.getElem_mem hlen2)
    have hm2 := hm
    rw [List.mem_filter, List.mem_filter] at hm2
    rw [onlyProposablePlaces_const]
    refine ⟨?_, hm2.1.1, by simpa using hm2.1.2, by simpa using hm2.2⟩
    simpa [Eligible] using hm

/-- With no eligible place of the team, the filtered slice is empty and
`ProposePlace` takes its no-candidates exit. -/
theorem ProposePlace_of_none_eligible (c : Collection) (now : Time) (draws : Nat → Nat)
    (teamID : String) (h : ∀ p ∈ c, p.TeamID = teamID → ¬ Eligible now p) :
    ProposePlace c false (fun _ => now) draws teamID = .error emptyCandidatesError := by
  rw [ProposePlace_const]
  have hnil : (c.filter (fun p => p.TeamID == teamID)).filter
      (fun p => decide (Eligible now p)) = [] := by
    rw [List.filter_eq_nil_iff]
    intro p hp
    rw [List.mem_filter] at hp
    simpa using h p hp.1 (by simpa using hp.2)
  simp only [hnil, List.length_nil, if_true]

/-- A place returned by `ProposePlace` is a stored place of the team that is
eligible at `now`. -/
theorem mem_of_ProposePlace_ok (c : Collection) (now : Time) (draws : Nat → Nat)
    (teamID : String) (p : Place)
    (h : ProposePlace c false (fun _ => now) draws teamID = .ok p) :
    p ∈ c ∧ p.TeamID = teamID ∧ Eligible now p := by
  rw [ProposePlace_const] at h
  simp only [] at h
  split at h
  · cases h
  · split at h
    · rename_i place hplace
      cases h
      have hm := mem_of_mem_shuffleSteps draws _ _ _ (List.getElem?_mem hplace)
      rw [List.mem_filter, List.mem_filter] at hm
      exact ⟨hm.1.1, by simpa using hm.1.2, by simpa using hm.2⟩
    · cases h

/-- C3: when the read succeeds and no place of the team is eligible at `now`
(in particular when the team has no place), `ProposePlace` fails with the
no-eligible-places error, which differs from the storage error. -/
theorem ProposePlace_no_candidates (c : Collection) (now : Time) (draws : Nat → Nat)
    (teamID : String) (h : ∀ p ∈ c, p.TeamID = teamID → ¬ Eligible now p) :
    ProposePlace c false (fun _ => now) draws teamID = .error emptyCandidatesError ∧
      emptyCandidatesError ≠ databaseError :=
  ⟨ProposePlace_of_none_eligible c now draws teamID h, by decide⟩

/-- Witness of C2: the single fresh place of team `T1` is proposed. -/
theorem ProposePlace_returns_eligible_witness :
    ∃ p, ProposePlace [deli, diner] false (fun _ => noon) (fun _ => 0) "T1" = .ok p ∧
      p ∈ onlyProposablePlaces (fun _ => noon)
        ([deli, diner].filter (fun q => q.TeamID == "T1")) ∧
      p ∈ [deli, diner] ∧ p.TeamID = "T1" ∧ Eligible noon p :=
  ProposePlace_returns_eligible [deli, diner] noon (fun _ => 0) "T1"
    ⟨deli, by decide, by decide, by decide⟩

/-- Witness of C3: team `T1` has one place, visited ten hours before `now`. -/
theorem ProposePlace_no_candidates_witness :
    ProposePlace [{ deli with LastVisited := 990 * Hour }, diner] false (fun _ => noon)
        (fun _ => 0) "T1" = .error emptyCandidatesError ∧
      emptyCandidatesError ≠ databaseError :=
  ProposePlace_no_candidates [{ deli with LastVisited := 990 * Hour }, diner] noon
    (fun _ => 0) "T1" (by decide)

/-! ## Sentinel timestamps -/

/-- The sentinel is compared like any instant: a place never skipped passes the
skip test exactly at the instants later than 6 hours after the zero instant, and
a place never visited passes the visit test exactly at those later than 72 hours
after it. -/
theorem sentinel_test_iff (now : Time) (p : Place) :
    (p.LastSkipped = zeroTime →
      (p.LastSkipped.Before (now.Add (-Hour * 6)) = true ↔ zeroTime + 6 * Hour < now)) ∧
    (p.LastVisited = zeroTime →
      (p.LastVisited.Before (now.Add (-Hour * 72)) = true ↔ zeroTime + 72 * Hour < now)) := by
  constructor
  · intro h
    unfold Time.Before Time.Add
    rw [decide_eq_true_eq, h]
    constructor <;> intro h <;> linarith
  · intro h
    unfold Time.Before Time.Add
    rw [decide_eq_true_eq, h]
    constructor <;> intro h <;> linarith

/-- Every clock reading is later than 72 hours (hence 6 hours) after the zero
instant. -/
theorem zeroTime_add_lt_of_unixEpoch_le (now : Time) (h : unixEpoch ≤ now) :
    zeroTime + 6 * Hour < now ∧ zeroTime + 72 * Hour < now := by
  have h6 : zeroTime + 6 * Hour < unixEpoch := by decide
  have h72 : zeroTime + 72 * Hour < unixEpoch := by decide
  exact ⟨lt_of_lt_of_le h6 h, lt_of_lt_of_le h72 h⟩

/-- C10: at every instant `now` the clock can read (none is earlier than the
Unix epoch), a place whose `LastSkipped` is the zero instant passes the skip
test of `onlyProposablePlaces`, a place whose `LastVisited` is the zero instant
passes its visit test, and so a freshly created place (both timestamps at the
zero instant) is in the output of `onlyProposablePlaces`. -/
theorem sentinel_always_eligible (now : Time) (p : Place) (hnow : unixEpoch ≤ now) :
    (p.LastSkipped = zeroTime → p.LastSkipped.Before (now.Add (-Hour * 6)) = true) ∧
    (p.LastVisited = zeroTime → p.LastVisited.Before (now.Add (-Hour * 72)) = true) ∧
    (p.LastSkipped = zeroTime → p.LastVisited = zeroTime →
      ∀ vs : List Place, p ∈ vs → p ∈ onlyProposablePlaces (fun _ => now) vs) := by
  obtain ⟨h6, h72⟩ := zeroTime_add_lt_of_unixEpoch_le now hnow
  refine ⟨?_, ?_, ?_⟩
  · intro hs
    exact ((sentinel_test_iff now p).1 hs).2 h6
  · intro hv
    exact ((sentinel_test_iff now p).2 hv).2 h72
  · intro hs hv vs hp
    rw [onlyProposablePlaces_const, List.mem_filter]
    refine ⟨hp, ?_⟩
    rw [decide_eq_true_eq]
    unfold Eligible
    rw [hs, hv]
    constructor <;> linarith

/-- Witness of C10 at the fresh place `deli`, with the clock at the Unix epoch,
the earliest reading. -/
theorem sentinel_always_eligible_witness :
    deli.LastSkipped.Before (unixEpoch.Add (-Hour * 6)) = true ∧
      deli.LastVisited.Before (unixEpoch.Add (-Hour * 72)) = true ∧
      deli ∈ onlyProposablePlaces (fun _ => unixEpoch) [cafe, deli] :=
  ⟨(sentinel_always_eligible unixEpoch deli (le_refl _)).1 rfl,
   (sentinel_always_eligible unixEpoch deli (le_refl _)).2.1 rfl,
   (sentinel_always_eligible unixEpoch deli (le_refl _)).2.2 rfl rfl [cafe, deli] (by decide)⟩

/-! ## The collection -/

/-- Two documents of a collection with unique identifiers that share their
identifier are the same document. -/
theorem eq_of_ID_eq (c : Collection) (h : UniqueIDs c) (p q : Place) (hp : p ∈ c) (hq : q ∈ c)
    (hid : p.ID = q.ID) : p = q :=
  List.inj_on_of_nodup_map h hp hq hid

/-- A selector that only selects documents with the identifier of `r` finds `r`. -/
theorem find?_eq_of_UniqueIDs (c : Collection) (h : UniqueIDs c) (sel : Place → Bool) (r : Place)
    (hr : r ∈ c) (hsel : sel r = true) (hid : ∀ p ∈ c, sel p = true → p.ID = r.ID) :
    c.find? sel = some r := by
  cases hf : c.find? sel with
  | none =>
    rw [List.find?_eq_none] at hf
    exact absurd hsel (hf r hr)
  | some p =>
    have hp := List.mem_of_find?_eq_some hf
    have hs := List.find?_some hf
    rw [eq_of_ID_eq c h p r hp hr (hid p hp hs)]

/-- Changing a document without changing its identifier keeps the identifiers. -/
theorem map_ID_modifyFirst (sel : Place → Bool) (f : Place → Place) (c : Collection)
    (hf : ∀ p ∈ c, sel p = true → (f p).ID = p.ID) :
    (modifyFirst sel f c).map (fun p => p.ID) = c.map (fun p => p.ID) := by
  induction c with
  | nil => rfl
  | cons d ds ih =>
    unfold modifyFirst
    by_cases hd : sel d = true
    · rw [if_pos hd]
      simp [hf d (List.mem_cons_self _ _) hd]
    · rw [if_neg hd]
      simp only [List.map_cons]
      rw [ih (fun p hp => hf p (List.mem_cons_of_mem _ hp))]

/-- A document of the changed collection is an old document or the image of a
selected one. -/
theorem mem_modifyFirst (sel : Place → Bool) (f : Place → Place) (c : Collection) (q : Place)
    (hq : q ∈ modifyFirst sel f c) : q ∈ c ∨ ∃ p ∈ c, sel p = true ∧ q = f p := by
  induction c with
  | nil => simp [modifyFirst] at hq
  | cons d ds ih =>
    unfold modifyFirst at hq
    by_cases hd : sel d = true
    · rw [if_pos hd] at hq
      rcases List.mem_cons.mp hq with h | h
      · exact Or.inr ⟨d, List.mem_cons_self _ _, hd, h⟩
      · exact Or.inl (List.mem_cons_of_mem _ h)
    · rw [if_neg hd] at hq
      rcases List.mem_cons.mp hq with h | h
      · exact Or.inl (h ▸ List.mem_cons_self _ _)
      · rcases ih h with h1 | ⟨p, hp, hs, he⟩
        · exact Or.inl (List.mem_cons_of_mem _ h1)
        · exact Or.inr ⟨p, List.mem_cons_of_mem _ hp, hs, he⟩

/-- Documents that are not selected stay in the changed collection. -/
theorem mem_modifyFirst_of_not_sel (sel : Place → Bool) (f : Place → Place) (c : Collection)
    (q : Place) (hq : q ∈ c) (hs : ¬ sel q = true) : q ∈ modifyFirst sel f c := by
  induction c with
  | nil => simp at hq
  | cons d ds ih =>
    unfold modifyFirst
    by_cases hd : sel d = true
    · rw [if_pos hd]
      rcases List.mem_cons.mp hq with h | h
      · exact absurd (h ▸ hd) hs
      · exact List.mem_cons_of_mem _ h
    · rw [if_neg hd]
      rcases List.mem_cons.mp hq with h | h
      · exact h ▸ List.mem_cons_self _ _
      · exact List.mem_cons_of_mem _ (ih h)

/-- When some document is selected, the image of the first one selected is in
the changed collection. -/
theorem image_mem_modifyFirst (sel : Place → Bool) (f : Place → Place) (c : Collection)
    (old : Place) (h : c.find? sel = some old) : f old ∈ modifyFirst sel f c := by
  induction c with
  | nil => simp at h
  | cons d ds ih =>
    unfold modifyFirst
    rw [List.find?_cons] at h
    by_cases hd : sel d = true
    · rw [if_pos hd]
      rw [hd] at h
      simp only [Option.some.injEq] at h
      rw [h]
      exact List.mem_cons_self _ _
    · rw [if_neg hd]
      have hd' : sel d = false := by simpa using hd
      rw [hd'] at h
      exact List.mem_cons_of_mem _ (ih h)

/-- A document of the collection after a removal was there before. -/
theorem mem_of_mem_removeFirst (sel : Place → Bool) (c : Collection) (q : Place)
    (hq : q ∈ removeFirst sel c) : q ∈ c := by
  induction c with
  | nil => simp [removeFirst] at hq
  | cons d ds ih =>
    unfold removeFirst at hq
    by_cases hd : sel d = true
    · rw [if_pos hd] at hq
      exact List.mem_cons_of_mem _ hq
    · rw [if_neg hd] at hq
      rcases List.mem_cons.mp hq with h | h
      · exact h ▸ List.mem_cons_self _ _
      · exact List.mem_cons_of_mem _ (ih h)

/-- A successful `update` yields the collection with the first selected document changed. -/
theorem update_ok (c c1 : Collection) (fault : Bool) (sel : Place → Bool) (f : Place → Place)
    (h : update c fault sel f = .ok c1) :
    ∃ old, c.find? sel = some old ∧ (f old).ID = old.ID ∧ c1 = modifyFirst sel f c := by
  unfold update at h
  split at h
  · cases h
  · split at h
    · cases h
    · rename_i old hold
      split at h
      · cases h
      · rename_i hne
        split at h
        · cases h
        · refine ⟨old, hold, by simpa using hne, ?_⟩
          cases h
          rfl


/-! ## Visit and skip -/

/-- The scoped read of `FindByID`, `VisitPlace` and `SkipPlace` finds the stored
record when identifiers are unique. -/
theorem findOne_scoped (c : Collection) (h : UniqueIDs c) (r : Place) (hr : r ∈ c) :
    findOne c false (fun p => p.TeamID == r.TeamID && p.ID == r.ID) = .ok r := by
  unfold findOne
  rw [find?_eq_of_UniqueIDs c h _ r hr (by simp) (by intro p _ hp; simp at hp; exact hp.2)]
  rfl

/-- After a successful replace of the record with the identifier of `r` by `r1`
(same identifier and team), the collection holds `r1` under that identifier and
its other records are as before. -/
theorem replace_holds (c c1 : Collection) (fault : Bool) (r r1 : Place) (h : UniqueIDs c)
    (hr : r ∈ c) (hid : r1.ID = r.ID)
    (hrep : update c fault (fun p => p.ID == r.ID) (fun _ => r1) = .ok c1) :
    UniqueIDs c1 ∧ r1 ∈ c1 ∧ (∀ q ∈ c1, q.ID = r.ID → q = r1) ∧
      (∀ q, q.ID ≠ r.ID → (q ∈ c1 ↔ q ∈ c)) := by
  obtain ⟨old, hold, _, hc1⟩ := update_ok c c1 fault _ _ hrep
  have hsel := List.find?_some hold
  have holdc := List.mem_of_find?_eq_some hold
  have holdr : old = r := eq_of_ID_eq c h old r holdc hr (by simpa using hsel)
  have hu1 : UniqueIDs c1 := by
    unfold UniqueIDs
    rw [hc1, map_ID_modifyFirst]
    · exact h
    · intro p hp hs
      have hpr : p = r := eq_of_ID_eq c h p r hp hr (by simpa using hs)
      rw [hpr, hid]
  have hmem : r1 ∈ c1 := by
    rw [hc1]
    exact image_mem_modifyFirst _ (fun _ => r1) c old hold
  refine ⟨hu1, hmem, ?_, ?_⟩
  · intro q hq hqid
    exact eq_of_ID_eq c1 hu1 q r1 hq hmem (by rw [hqid, hid])
  · intro q hqid
    constructor
    · intro hq
      rw [hc1] at hq
      rcases mem_modifyFirst _ _ c q hq with h1 | ⟨p, _, _, he⟩
      · exact h1
      · exact absurd (by rw [he, hid]) hqid
    · intro hq
      rw [hc1]
      exact mem_modifyFirst_of_not_sel _ _ c q hq (by simpa using hqid)

/-- C4: for a stored record `r` of the team, when the replace succeeds,
`VisitPlace` at `now` returns `r` with `LastVisited = now` and `VisitCount`
increased by one, every other field unchanged, and the collection afterwards
holds exactly that record under the identifier (other records untouched). -/
theorem VisitPlace_spec (c c1 : Collection) (updateFault : Bool) (now : Time)
    (teamID id : String) (r : Place) (huniq : UniqueIDs c) (hr : r ∈ c)
    (hid : ObjectIdHex id = some r.ID) (hteam : r.TeamID = teamID)
    (hrep : update c updateFault (fun p => p.ID == r.ID)
      (fun _ => ⟨r.ID, r.TeamID, r.Name, now, r.LastSkipped, r.VisitCount + 1, r.SkipCount⟩)
        = .ok c1) :
    VisitPlace c false updateFault (fun _ => now) teamID id =
      (.ok ⟨r.ID, r.TeamID, r.Name, now, r.LastSkipped, r.VisitCount + 1, r.SkipCount⟩, c1) ∧
    FindByID c1 false teamID id =
      .ok ⟨r.ID, r.TeamID, r.Name, now, r.LastSkipped, r.VisitCount + 1, r.SkipCount⟩ ∧
    (∀ q ∈ c1, q.ID = r.ID →
      q = ⟨r.ID, r.TeamID, r.Name, now, r.LastSkipped, r.VisitCount + 1, r.SkipCount⟩) ∧
    (∀ q, q.ID ≠ r.ID → (q ∈ c1 ↔ q ∈ c)) := by
  obtain ⟨hu1, hmem, hall, hother⟩ := replace_holds c c1 updateFault r
    ⟨r.ID, r.TeamID, r.Name, now, r.LastSkipped, r.VisitCount + 1, r.SkipCount⟩ huniq hr rfl hrep
  subst hteam
  refine ⟨?_, ?_, hall, hother⟩
  · unfold VisitPlace
    rw [hid]
    simp only []
    rw [findOne_scoped c huniq r hr]
    simp only []
    rw [hrep]
  · unfold FindByID
    rw [hid]
    simp only []
    rw [findOne_scoped c1 hu1 _ hmem]


/-- Witness of C4: visiting `cafe` in a collection of three places. -/
theorem VisitPlace_spec_witness :
    VisitPlace [deli, cafe, diner] false false (fun _ => noon) "T1" "5F0000000000000000000002" =
      (.ok ⟨cafe.ID, "T1", "Cafe", noon, 2000, 6, 2⟩,
        [deli, ⟨cafe.ID, "T1", "Cafe", noon, 2000, 6, 2⟩, diner]) ∧
    FindByID [deli, ⟨cafe.ID, "T1", "Cafe", noon, 2000, 6, 2⟩, diner] false "T1"
      "5F0000000000000000000002" = .ok ⟨cafe.ID, "T1", "Cafe", noon, 2000, 6, 2⟩ ∧
    (∀ q ∈ [deli, ⟨cafe.ID, "T1", "Cafe", noon, 2000, 6, 2⟩, diner], q.ID = cafe.ID →
      q = ⟨cafe.ID, "T1", "Cafe", noon, 2000, 6, 2⟩) ∧
    (∀ q, q.ID ≠ cafe.ID →
      (q ∈ [deli, ⟨cafe.ID, "T1", "Cafe", noon, 2000, 6, 2⟩, diner] ↔ q ∈ [deli, cafe, diner])) :=
  VisitPlace_spec [deli, cafe, diner] [deli, ⟨cafe.ID, "T1", "Cafe", noon, 2000, 6, 2⟩, diner]
    false noon "T1" "5F0000000000000000000002" cafe (by decide) (by decide) (by decide) rfl
    rfl

/-- C5: for a stored record `r` of the team, when the replace succeeds,
`SkipPlace` at `now` succeeds and leaves under the identifier the record `r`
with `LastSkipped = now` and `SkipCount` increased by one, every other field
unchanged (other records untouched). -/
theorem SkipPlace_spec (c c1 : Collection) (updateFault : Bool) (now : Time)
    (teamID id : String) (r : Place) (huniq : UniqueIDs c) (hr : r ∈ c)
    (hid : ObjectIdHex id = some r.ID) (hteam : r.TeamID = teamID)
    (hrep : update c updateFault (fun p => p.ID == r.ID)
      (fun _ => ⟨r.ID, r.TeamID, r.Name, r.LastVisited, now, r.VisitCount, r.SkipCount + 1⟩)
        = .ok c1) :
    SkipPlace c false updateFault (fun _ => now) teamID id = (.ok (), c1) ∧
    FindByID c1 false teamID id =
      .ok ⟨r.ID, r.TeamID, r.Name, r.LastVisited, now, r.VisitCount, r.SkipCount + 1⟩ ∧
    (∀ q ∈ c1, q.ID = r.ID →
      q = ⟨r.ID, r.TeamID, r.Name, r.LastVisited, now, r.VisitCount, r.SkipCount + 1⟩) ∧
    (∀ q, q.ID ≠ r.ID → (q ∈ c1 ↔ q ∈ c)) := by
  obtain ⟨hu1, hmem, hall, hother⟩ := replace_holds c c1 updateFault r
    ⟨r.ID, r.TeamID, r.Name, r.LastVisited, now, r.VisitCount, r.SkipCount + 1⟩ huniq hr rfl hrep
  subst hteam
  refine ⟨?_, ?_, hall, hother⟩
  · unfold SkipPlace
    rw [hid]
    simp only []
    rw [findOne_scoped c huniq r hr]
    simp only []
    rw [hrep]
  · unfold FindByID
    rw [hid]
    simp only []
    rw [findOne_scoped c1 hu1 _ hmem]

/-- Witness of C5: skipping `cafe` in a collection of three places. -/
theorem SkipPlace_spec_witness :
    SkipPlace [deli, cafe, diner] false false (fun _ => noon) "T1" "5f0000000000000000000002" =
      (.ok (), [deli, ⟨cafe.ID, "T1", "Cafe", 1000, noon, 5, 3⟩, diner]) ∧
    FindByID [deli, ⟨cafe.ID, "T1", "Cafe", 1000, noon, 5, 3⟩, diner] false "T1"
      "5f0000000000000000000002" = .ok ⟨cafe.ID, "T1", "Cafe", 1000, noon, 5, 3⟩ ∧
    (∀ q ∈ [deli, ⟨cafe.ID, "T1", "Cafe", 1000, noon, 5, 3⟩, diner], q.ID = cafe.ID →
      q = ⟨cafe.ID, "T1", "Cafe", 1000, noon, 5, 3⟩) ∧
    (∀ q, q.ID ≠ cafe.ID →
      (q ∈ [deli, ⟨cafe.ID, "T1", "Cafe", 1000, noon, 5, 3⟩, diner] ↔ q ∈ [deli, cafe, diner])) :=
  SkipPlace_spec [deli, cafe, diner] [deli, ⟨cafe.ID, "T1", "Cafe", 1000, noon, 5, 3⟩, diner]
    false noon "T1" "5f0000000000000000000002" cafe (by decide) (by decide) (by decide) rfl
    rfl


/-- What a successful `SkipPlace` did: it found a record of the team under the
identifier and replaced it. -/
theorem SkipPlace_ok (c c1 : Collection) (findFault updateFault : Bool) (clock : Nat → Time)
    (teamID id : String) (oid : ObjectId) (hid : ObjectIdHex id = some oid)
    (h : SkipPlace c findFault updateFault clock teamID id = (.ok (), c1)) :
    ∃ r ∈ c, r.ID = oid ∧ r.TeamID = teamID ∧
      update c updateFault (fun p => p.ID == r.ID)
        (fun _ => ⟨r.ID, r.TeamID, r.Name, r.LastVisited, clock 0, r.VisitCount,
          r.SkipCount + 1⟩) = .ok c1 := by
  unfold SkipPlace at h
  rw [hid] at h
  simp only [] at h
  cases hf : findOne c findFault (fun p => p.TeamID == teamID && p.ID == oid) with
  | error e => rw [hf] at h; simp at h
  | ok found =>
    rw [hf] at h
    simp only [] at h
    unfold findOne at hf
    split at hf
    · cases hf
    · split at hf
      · rename_i q hq
        cases hf
        have hs := List.find?_some hq
        simp only [Bool.and_eq_true, beq_iff_eq] at hs
        refine ⟨found, List.mem_of_find?_eq_some hq, hs.2, hs.1, ?_⟩
        rw [hs.2]
        split at h
        · simp at h
        · rename_i c2 hc2
          simp only [Prod.mk.injEq, true_and] at h
          rw [← h, ← hc2, hs.2]
      · cases hf

/-- What a successful `VisitPlace` did: it found a record of the team under the
identifier and replaced it. -/
theorem VisitPlace_ok (c c1 : Collection) (findFault updateFault : Bool) (clock : Nat → Time)
    (teamID id : String) (oid : ObjectId) (ret : Place) (hid : ObjectIdHex id = some oid)
    (h : VisitPlace c findFault updateFault clock teamID id = (.ok ret, c1)) :
    ∃ r ∈ c, r.ID = oid ∧ r.TeamID = teamID ∧
      update c updateFault (fun p => p.ID == r.ID)
        (fun _ => ⟨r.ID, r.TeamID, r.Name, clock 0, r.LastSkipped, r.VisitCount + 1,
          r.SkipCount⟩) = .ok c1 := by
  unfold VisitPlace at h
  rw [hid] at h
  simp only [] at h
  cases hf : findOne c findFault (fun p => p.TeamID == teamID && p.ID == oid) with
  | error e => rw [hf] at h; simp at h
  | ok found =>
    rw [hf] at h
    simp only [] at h
    unfold findOne at hf
    split at hf
    · cases hf
    · split at hf
      · rename_i q hq
        cases hf
        have hs := List.find?_some hq
        simp only [Bool.and_eq_true, beq_iff_eq] at hs
        refine ⟨found, List.mem_of_find?_eq_some hq, hs.2, hs.1, ?_⟩
        rw [hs.2]
        split at h
        · simp at h
        · rename_i c2 hc2
          simp only [Prod.mk.injEq] at h
          rw [← h.2, ← hc2, hs.2]
      · cases hf


/-- C6 at a failing input: for an identifier that is absent, or present under
another team, `FindByID`, `VisitPlace` and `SkipPlace` return the generic
storage error, the very result of a failed read, and not the not-found error
that `DeletePlace` returns at the same input. -/
theorem find_absent_returns_databaseError :
    FindByID [] false "T1" "5f0000000000000000000003" = .error databaseError ∧
    FindByID [diner] false "T1" "5f0000000000000000000003" = .error databaseError ∧
    FindByID [diner] true "T1" "5f0000000000000000000003" = .error databaseError ∧
    VisitPlace [diner] false false (fun _ => noon) "T1" "5f0000000000000000000003" =
      (.error databaseError, [diner]) ∧
    SkipPlace [diner] false false (fun _ => noon) "T1" "5f0000000000000000000003" =
      (.error databaseError, [diner]) ∧
    DeletePlace [diner] false "T1" "5f0000000000000000000003" =
      (.error notFoundError, [diner]) ∧
    databaseError ≠ notFoundError :=
  ⟨rfl, rfl, rfl, rfl, rfl, rfl, by decide⟩

/-- A record whose last skip is at `t` fails the skip test up to `t + 6h`, and a
record whose last visit is at `t` fails the visit test up to `t + 72h`. -/
theorem not_Eligible_of_recent (now t : Time) (p : Place) :
    (p.LastSkipped = t → now ≤ t + 6 * Hour → ¬ Eligible now p) ∧
    (p.LastVisited = t → now ≤ t + 72 * Hour → ¬ Eligible now p) := by
  unfold Eligible
  constructor
  · intro h1 h2 h3
    rw [h1] at h3
    linarith [h3.1]
  · intro h1 h2 h3
    rw [h1] at h3
    linarith [h3.2]

/-- When no record stored under `oid` is eligible at `now`: the eligible set of
the team has no record with that identifier, `ProposePlace` never returns one,
and it fails with the no-candidates error if the team has no other place. -/
theorem not_proposed_of_not_Eligible (c : Collection) (now : Time) (draws : Nat → Nat)
    (teamID : String) (oid : ObjectId) (h : ∀ q ∈ c, q.ID = oid → ¬ Eligible now q) :
    (∀ p ∈ onlyProposablePlaces (fun _ => now) (c.filter (fun q => q.TeamID == teamID)),
      p.ID ≠ oid) ∧
    (∀ p, ProposePlace c false (fun _ => now) draws teamID = .ok p → p.ID ≠ oid) ∧
    ((∀ p ∈ c, p.TeamID = teamID → p.ID = oid) →
      ProposePlace c false (fun _ => now) draws teamID = .error emptyCandidatesError) := by
  refine ⟨?_, ?_, ?_⟩
  · intro p hp hpid
    rw [onlyProposablePlaces_const, List.mem_filter, List.mem_filter] at hp
    exact h p hp.1.1 hpid (by simpa [Eligible] using hp.2)
  · intro p hp hpid
    obtain ⟨hpc, _, hpe⟩ := mem_of_ProposePlace_ok c now draws teamID p hp
    exact h p hpc hpid hpe
  · intro honly
    exact ProposePlace_of_none_eligible c now draws teamID
      (fun p hp ht => h p hp (honly p hp ht))

/-- C8: after a successful `SkipPlace` at `t`, in every later collection `c2`
whose record under the identifier is still the one `SkipPlace` wrote, the record
is not in the eligible set at any `now ≤ t + 6h`: `ProposePlace` never returns it
and fails with the no-candidates error when it is the only place of the team.
Likewise after a successful `VisitPlace` at `t`, for every `now ≤ t + 72h`. -/
theorem recent_skip_or_visit_not_proposed (c c1 c2 : Collection) (findFault updateFault : Bool)
    (t now : Time) (draws : Nat → Nat) (teamID id : String) (oid : ObjectId)
    (huniq : UniqueIDs c) (hid : ObjectIdHex id = some oid)
    (hkeep : ∀ q ∈ c2, q.ID = oid → q ∈ c1) :
    (SkipPlace c findFault updateFault (fun _ => t) teamID id = (.ok (), c1) →
      now ≤ t + 6 * Hour →
      (∀ p ∈ onlyProposablePlaces (fun _ => now) (c2.filter (fun q => q.TeamID == teamID)),
        p.ID ≠ oid) ∧
      (∀ p, ProposePlace c2 false (fun _ => now) draws teamID = .ok p → p.ID ≠ oid) ∧
      ((∀ p ∈ c2, p.TeamID = teamID → p.ID = oid) →
        ProposePlace c2 false (fun _ => now) draws teamID = .error emptyCandidatesError)) ∧
    (∀ ret, VisitPlace c findFault updateFault (fun _ => t) teamID id = (.ok ret, c1) →
      now ≤ t + 72 * Hour →
      (∀ p ∈ onlyProposablePlaces (fun _ => now) (c2.filter (fun q => q.TeamID == teamID)),
        p.ID ≠ oid) ∧
      (∀ p, ProposePlace c2 false (fun _ => now) draws teamID = .ok p → p.ID ≠ oid) ∧
      ((∀ p ∈ c2, p.TeamID = teamID → p.ID = oid) →
        ProposePlace c2 false (fun _ => now) draws teamID = .error emptyCandidatesError)) := by
  constructor
  · intro hskip hnow
    obtain ⟨r, hr, hrid, _, hrep⟩ := SkipPlace_ok c c1 findFault updateFault _ teamID id oid hid hskip
    obtain ⟨_, _, hall, _⟩ := replace_holds c c1 updateFault r
      ⟨r.ID, r.TeamID, r.Name, r.LastVisited, t, r.VisitCount, r.SkipCount + 1⟩ huniq hr rfl hrep
    apply not_proposed_of_not_Eligible
    intro q hq hqid
    have hq1 := hall q (hkeep q hq hqid) (by rw [hqid, hrid])
    exact (not_Eligible_of_recent now t q).1 (by rw [hq1]) hnow
  · intro ret hvisit hnow
    obtain ⟨r, hr, hrid, _, hrep⟩ :=
      VisitPlace_ok c c1 findFault updateFault _ teamID id oid ret hid hvisit
    obtain ⟨_, _, hall, _⟩ := replace_holds c c1 updateFault r
      ⟨r.ID, r.TeamID, r.Name, t, r.LastSkipped, r.VisitCount + 1, r.SkipCount⟩ huniq hr rfl hrep
    apply not_proposed_of_not_Eligible
    intro q hq hqid
    have hq1 := hall q (hkeep q hq hqid) (by rw [hqid, hrid])
    exact (not_Eligible_of_recent now t q).2 (by rw [hq1]) hnow

/-- Witness of C8: `deli` is the only place of team `T1`; right after it is
skipped at `noon` the proposal fails, and so it does 72 hours after a visit,
the other team having added a place meanwhile. -/
theorem recent_skip_or_visit_not_proposed_witness :
    ProposePlace [⟨deli.ID, "T1", "Deli", zeroTime, noon, 0, 1⟩, diner] false
      (fun _ => noon) (fun _ => 0) "T1" = .error emptyCandidatesError ∧
    ProposePlace [⟨deli.ID, "T1", "Deli", noon, zeroTime, 1, 0⟩, diner] false
      (fun _ => noon + 72 * Hour) (fun _ => 0) "T1" = .error emptyCandidatesError :=
  ⟨((recent_skip_or_visit_not_proposed [deli, diner]
      [⟨deli.ID, "T1", "Deli", zeroTime, noon, 0, 1⟩, diner]
      [⟨deli.ID, "T1", "Deli", zeroTime, noon, 0, 1⟩, diner] false false noon noon
      (fun _ => 0) "T1" "5f0000000000000000000001" deli.ID (by decide) (by decide)
      (fun _ hq _ => hq)).1 rfl (by decide)).2.2 (by decide),
   ((recent_skip_or_visit_not_proposed [deli]
      [⟨deli.ID, "T1", "Deli", noon, zeroTime, 1, 0⟩]
      [⟨deli.ID, "T1", "Deli", noon, zeroTime, 1, 0⟩, diner] false false noon
      (noon + 72 * Hour) (fun _ => 0) "T1" "5f0000000000000000000001" deli.ID
      (by decide) (by decide) (by decide)).2 ⟨deli.ID, "T1", "Deli", noon, zeroTime, 1, 0⟩
      rfl (by decide)).2.2 (by decide)⟩

/-! ## Counters -/

/-- C9, as stated, fails: an `UpdatePlace` whose field updates name the counters
resets both counters of a stored place. -/
theorem UpdatePlace_resets_counters :
    collectionAfter [cafe]
        (.update false "T1" "5f0000000000000000000002" ⟨none, none, none, none, some 0, some 0⟩) =
      [⟨cafe.ID, "T1", "Cafe", 1000, 2000, 0, 0⟩] ∧
    cafe.VisitCount = 5 ∧ cafe.SkipCount = 2 ∧
    ¬ (∀ p ∈ [cafe], ∀ q ∈ collectionAfter [cafe]
        (.update false "T1" "5f0000000000000000000002" ⟨none, none, none, none, some 0, some 0⟩),
        p.ID = q.ID → p.VisitCount ≤ q.VisitCount ∧ p.SkipCount ≤ q.SkipCount) := by
  decide


/-- A collection with unique identifiers keeps its own counters. -/
theorem CountersKept_self (c : Collection) (h : UniqueIDs c) : CountersKept c c := by
  intro p hp q hq hid
  rw [eq_of_ID_eq c h p q hp hq hid]
  exact ⟨le_refl _, le_refl _⟩

/-- A successful `update` by a change that keeps the identifier and does not
lower the counters keeps the counters. -/
theorem CountersKept_update (c c1 : Collection) (h : UniqueIDs c) (fault : Bool)
    (sel : Place → Bool) (f : Place → Place)
    (hf : ∀ p ∈ c, sel p = true →
      (f p).ID = p.ID ∧ p.VisitCount ≤ (f p).VisitCount ∧ p.SkipCount ≤ (f p).SkipCount)
    (hup : update c fault sel f = .ok c1) : CountersKept c c1 := by
  obtain ⟨_, _, _, hc1⟩ := update_ok c c1 fault sel f hup
  intro p hp q hq hid
  rw [hc1] at hq
  rcases mem_modifyFirst sel f c q hq with h1 | ⟨p0, hp0, hs, he⟩
  · exact CountersKept_self c h p hp q h1 hid
  · obtain ⟨h1, h2, h3⟩ := hf p0 hp0 hs
    have hpp : p = p0 := eq_of_ID_eq c h p p0 hp hp0 (by rw [hid, he, h1])
    rw [he, hpp]
    exact ⟨h2, h3⟩

/-- The method `AddPlace` keeps the counters of the places already stored. -/
theorem CountersKept_AddPlace (c : Collection) (h : UniqueIDs c) (fault : Bool) (place : Place) :
    CountersKept c (AddPlace c fault place).2 := by
  unfold AddPlace
  cases hi : insert c fault place with
  | error e =>
    simp only []
    split <;> exact CountersKept_self c h
  | ok c1 =>
    simp only []
    unfold insert at hi
    split at hi
    · cases hi
    · split at hi
      · cases hi
      · rename_i hany
        cases hi
        intro p hp q hq hid
        rcases List.mem_append.mp hq with hq1 | hq1
        · exact CountersKept_self c h p hp q hq1 hid
        · rw [List.mem_singleton] at hq1
          exfalso
          apply hany
          rw [List.any_eq_true]
          exact ⟨p, hp, by simp [hid, hq1]⟩

/-- The method `UpdatePlace` keeps the counters when its field updates do not
name them. -/
theorem CountersKept_UpdatePlace (c : Collection) (h : UniqueIDs c) (fault : Bool)
    (teamID id : String) (u : Updates) (hv : u.VisitCount = none) (hs : u.SkipCount = none) :
    CountersKept c (UpdatePlace c fault teamID id u).2 := by
  unfold UpdatePlace
  split
  · exact CountersKept_self c h
  · rename_i oid _
    cases hup : update c fault (fun p => p.ID == oid && p.TeamID == teamID) u.apply with
    | error e => exact CountersKept_self c h
    | ok c1 =>
      refine CountersKept_update c c1 h fault _ _ ?_ hup
      intro p _ _
      simp [Updates.apply, hv, hs]

/-- The method `VisitPlace` keeps the counters. -/
theorem CountersKept_VisitPlace (c : Collection) (h : UniqueIDs c) (findFault updateFault : Bool)
    (clock : Nat → Time) (teamID id : String) :
    CountersKept c (VisitPlace c findFault updateFault clock teamID id).2 := by
  cases hres : VisitPlace c findFault updateFault clock teamID id with
  | mk res c1 =>
    cases hid : ObjectIdHex id with
    | none =>
      unfold VisitPlace at hres
      rw [hid] at hres
      cases hres
      exact CountersKept_self c h
    | some oid =>
      cases res with
      | error e =>
        have hc : c1 = c := by
          unfold VisitPlace at hres
          rw [hid] at hres
          simp only [] at hres
          split at hres
          · cases hres; rfl
          · split at hres <;> cases hres
            rfl
        rw [hc]
        exact CountersKept_self c h
      | ok ret =>
        obtain ⟨r, hr, _, _, hrep⟩ :=
          VisitPlace_ok c c1 findFault updateFault clock teamID id oid ret hid hres
        refine CountersKept_update c c1 h updateFault _ _ ?_ hrep
        intro p hp hsel
        have hpr : p = r := eq_of_ID_eq c h p r hp hr (by simpa using hsel)
        rw [hpr]
        exact ⟨rfl, Nat.le_succ _, le_refl _⟩

/-- The method `SkipPlace` keeps the counters. -/
theorem CountersKept_SkipPlace (c : Collection) (h : UniqueIDs c) (findFault updateFault : Bool)
    (clock : Nat → Time) (teamID id : String) :
    CountersKept c (SkipPlace c findFault updateFault clock teamID id).2 := by
  cases hres : SkipPlace c findFault updateFault clock teamID id with
  | mk res c1 =>
    cases hid : ObjectIdHex id with
    | none =>
      unfold SkipPlace at hres
      rw [hid] at hres
      cases hres
      exact CountersKept_self c h
    | some oid =>
      cases res with
      | error e =>
        have hc : c1 = c := by
          unfold SkipPlace at hres
          rw [hid] at hres
          simp only [] at hres
          split at hres
          · cases hres; rfl
          · split at hres <;> cases hres
            rfl
        rw [hc]
        exact CountersKept_self c h
      | ok ret =>
        obtain ⟨r, hr, _, _, hrep⟩ :=
          SkipPlace_ok c c1 findFault updateFault clock teamID id oid hid hres
        refine CountersKept_update c c1 h updateFault _ _ ?_ hrep
        intro p hp hsel
        have hpr : p = r := eq_of_ID_eq c h p r hp hr (by simpa using hsel)
        rw [hpr]
        exact ⟨rfl, le_refl _, Nat.le_succ _⟩

/-- The method `DeletePlace` keeps the counters of the places that remain. -/
theorem CountersKept_DeletePlace (c : Collection) (h : UniqueIDs c) (fault : Bool)
    (teamID id : String) : CountersKept c (DeletePlace c fault teamID id).2 := by
  unfold DeletePlace
  split
  · exact CountersKept_self c h
  · rename_i oid _
    cases hrm : remove c fault (fun p => p.TeamID == teamID && p.ID == oid) with
    | error e => cases e <;> exact CountersKept_self c h
    | ok c1 =>
      simp only []
      unfold remove at hrm
      split at hrm
      · cases hrm
      · split at hrm
        · cases hrm
        · cases hrm
          intro p hp q hq hid
          exact CountersKept_self c h p hp q (mem_of_mem_removeFirst _ c q hq) hid

/-- C9, amended: for every operation other than an `UpdatePlace` whose field
updates name `visitCount` or `skipCount`, with any arguments and any behaviour
of the environment, every place that exists before and after the operation has
afterwards a `visitCount` and a `skipCount` at least as large as before. -/
theorem counters_never_decrease (c : Collection) (op : Op) (huniq : UniqueIDs c)
    (hop : leavesCounters op) (p q : Place) (hp : p ∈ c) (hq : q ∈ collectionAfter c op)
    (hid : p.ID = q.ID) : p.VisitCount ≤ q.VisitCount ∧ p.SkipCount ≤ q.SkipCount := by
  cases op with
  | add fault place => exact CountersKept_AddPlace c huniq fault place p hp q hq hid
  | update fault teamID id updates =>
    exact CountersKept_UpdatePlace c huniq fault teamID id updates hop.1 hop.2 p hp q hq hid
  | visit findFault updateFault clock teamID id =>
    exact CountersKept_VisitPlace c huniq findFault updateFault clock teamID id p hp q hq hid
  | skip findFault updateFault clock teamID id =>
    exact CountersKept_SkipPlace c huniq findFault updateFault clock teamID id p hp q hq hid
  | delete fault teamID id => exact CountersKept_DeletePlace c huniq fault teamID id p hp q hq hid
  | propose fault clock draws teamID => exact CountersKept_self c huniq p hp q hq hid

/-- Witness of the amended C9: visiting `cafe` raises its `visitCount` from 5
to 6 and keeps its `skipCount`. -/
theorem counters_never_decrease_witness :
    cafe.VisitCount ≤ (⟨cafe.ID, "T1", "Cafe", noon, 2000, 6, 2⟩ : Place).VisitCount ∧
      cafe.SkipCount ≤ (⟨cafe.ID, "T1", "Cafe", noon, 2000, 6, 2⟩ : Place).SkipCount :=
  counters_never_decrease [deli, cafe]
    (.visit false false (fun _ => noon) "T1" "5f0000000000000000000002") (by decide) trivial
    cafe ⟨cafe.ID, "T1", "Cafe", noon, 2000, 6, 2⟩ (by decide) (by decide) rfl


/-! ## Uniformity of the selector -/

/-- A swap at an index outside the slice changes nothing. -/
theorem swap_of_length_le (vs : List Place) (i j : Nat) (h : vs.length ≤ i) : swap vs i j = vs := by
  unfold swap
  rw [List.getElem?_eq_none h]

/-- The entries of a slice after a swap of two indices in range. -/
theorem getElem?_swap (vs : List Place) (i j m : Nat) (hi : i < vs.length) (hj : j < vs.length) :
    (swap vs i j)[m]? = if m = j then vs[i]? else if m = i then vs[j]? else vs[m]? := by
  unfold swap
  rw [List.getElem?_eq_getElem hi, List.getElem?_eq_getElem hj]
  simp only []
  rw [List.getElem?_set, List.getElem?_set, List.length_set]
  by_cases h1 : j = m
  · subst h1
    simp [hj]
  · have h1' : ¬ m = j := fun h => h1 h.symm
    rw [if_neg h1, if_neg h1']
    by_cases h2 : i = m
    · subst h2
      simp [hi]
    · have h2' : ¬ m = i := fun h => h2 h.symm
      rw [if_neg h2, if_neg h2']

/-- One more iteration of the shuffle. -/
theorem shuffleSteps_succ (draws : Nat → Nat) (vs : List Place) (k : Nat) :
    shuffleSteps draws vs (k + 1) =
      swap (shuffleSteps draws vs k) k (Intn (draws k) (k + 1)) := by
  unfold shuffleSteps
  rw [List.range_succ, List.foldl_append]
  rfl

/-- The draw of iteration `k` is at most `k`. -/
theorem Intn_le (raw k : Nat) : Intn raw (k + 1) ≤ k := by
  unfold Intn
  exact Nat.le_of_lt_succ (Nat.mod_lt _ (Nat.succ_pos k))

/-- The first `k` iterations leave the entries from index `k` on untouched. -/
theorem getElem?_shuffleSteps_of_le (draws : Nat → Nat) (vs : List Place) (k m : Nat)
    (h : k ≤ m) : (shuffleSteps draws vs k)[m]? = vs[m]? := by
  induction k with
  | zero => simp [shuffleSteps]
  | succ k ih =>
    rw [shuffleSteps_succ]
    by_cases hk : k < vs.length
    · have hl := length_shuffleSteps draws vs k
      have hj := Intn_le (draws k) k
      rw [getElem?_swap _ _ _ _ (by omega) (by omega)]
      rw [if_neg (by omega), if_neg (by omega)]
      exact ih (by omega)
    · rw [swap_of_length_le _ _ _ (by rw [length_shuffleSteps]; omega)]
      exact ih (by omega)

/-- The first `k` iterations only use the first `k` draws. -/
theorem shuffleSteps_congr (d1 d2 : Nat → Nat) (vs : List Place) (k : Nat)
    (h : ∀ i, i < k → d1 i = d2 i) : shuffleSteps d1 vs k = shuffleSteps d2 vs k := by
  induction k with
  | zero => rfl
  | succ k ih =>
    rw [shuffleSteps_succ, shuffleSteps_succ, ih (fun i hi => h i (by omega)), h k (by omega)]

/-- The first iteration swaps index 0 with itself. -/
theorem head_shuffleSteps_one (draws : Nat → Nat) (vs : List Place) :
    (shuffleSteps draws vs 1)[0]? = vs[0]? := by
  rw [shuffleSteps_succ]
  by_cases h : 0 < vs.length
  · have h0 : Intn (draws 0) (0 + 1) = 0 := Nat.le_zero.mp (Intn_le _ 0)
    rw [h0, getElem?_swap _ _ _ _ (by rw [length_shuffleSteps]; exact h)
      (by rw [length_shuffleSteps]; exact h)]
    simp [shuffleSteps]
  · rw [swap_of_length_le _ _ _ (by rw [length_shuffleSteps]; omega)]
    simp [shuffleSteps]

/-- Iteration `k ≥ 1` puts the untouched entry `vs[k]` at index 0 when its draw
is 0 and leaves index 0 alone otherwise. -/
theorem head_shuffleSteps_succ (draws : Nat → Nat) (vs : List Place) (k : Nat) (hk : 1 ≤ k)
    (hlen : k < vs.length) :
    (shuffleSteps draws vs (k + 1))[0]? =
      if Intn (draws k) (k + 1) = 0 then vs[k]? else (shuffleSteps draws vs k)[0]? := by
  have hl := length_shuffleSteps draws vs k
  have hj := Intn_le (draws k) k
  rw [shuffleSteps_succ, getElem?_swap _ _ _ _ (by omega) (by omega)]
  by_cases h0 : Intn (draws k) (k + 1) = 0
  · rw [if_pos h0.symm, if_pos h0]
    exact getElem?_shuffleSteps_of_le draws vs k k (le_refl _)
  · rw [if_neg (fun h => h0 h.symm), if_neg h0, if_neg (by omega)]


/-- Extending every sequence of a list by each of `m` draws multiplies the
number of sequences by `m`. -/
theorem length_flatMap_snoc (L : List (List Nat)) (m : Nat) :
    (L.flatMap (fun ds => (List.range m).map (fun j => ds ++ [j]))).length = L.length * m := by
  induction L with
  | nil => simp
  | cons ds L ih =>
    rw [List.flatMap_cons, List.length_append, ih, List.length_map, List.length_range,
      List.length_cons]
    ring

/-- There are `n!` draw sequences of length `n`. -/
theorem length_drawSeqs (n : Nat) : (drawSeqs n).length = n.factorial := by
  induction n with
  | zero => rfl
  | succ n ih =>
    unfold drawSeqs
    rw [length_flatMap_snoc, ih, Nat.factorial_succ]
    ring

/-- The draws of an extended sequence: the old ones, then the new one. -/
theorem drawsOf_snoc (ds : List Nat) (j : Nat) :
    (∀ i, i < ds.length → drawsOf (ds ++ [j]) i = drawsOf ds i) ∧
      drawsOf (ds ++ [j]) ds.length = j := by
  unfold drawsOf
  constructor
  · intro i hi
    rw [List.getD_eq_getElem?_getD, List.getD_eq_getElem?_getD, List.getElem?_append_left hi]
  · rw [List.getD_eq_getElem?_getD, List.getElem?_concat_length]
    rfl

/-- The members of `drawSeqs n` are exactly the sequences of `n` draws whose
draw `i` is at most `i`. -/
theorem mem_drawSeqs (n : Nat) (ds : List Nat) :
    ds ∈ drawSeqs n ↔ ds.length = n ∧ ∀ i, i < n → drawsOf ds i ≤ i := by
  induction n generalizing ds with
  | zero =>
    unfold drawSeqs
    rw [List.mem_singleton]
    constructor
    · intro h
      subst h
      exact ⟨rfl, fun i hi => absurd hi (Nat.not_lt_zero i)⟩
    · intro h
      exact List.length_eq_zero.mp h.1
  | succ n ih =>
    unfold drawSeqs
    rw [List.mem_flatMap]
    constructor
    · rintro ⟨ds0, hds0, hmem⟩
      rw [List.mem_map] at hmem
      obtain ⟨j, hj, rfl⟩ := hmem
      rw [List.mem_range] at hj
      obtain ⟨hlen, hle⟩ := (ih ds0).mp hds0
      refine ⟨by rw [List.length_append, hlen]; rfl, ?_⟩
      intro i hi
      by_cases hin : i < n
      · rw [(drawsOf_snoc ds0 j).1 i (by omega)]
        exact hle i hin
      · have hieq : i = ds0.length := by omega
        rw [hieq, (drawsOf_snoc ds0 j).2]
        omega
    · rintro ⟨hlen, hle⟩
      rcases List.eq_nil_or_concat ds with h | ⟨ds0, j, h⟩
      · subst h
        simp at hlen
      · rw [List.concat_eq_append] at h
        subst h
        have hlen0 : ds0.length = n := by
          rw [List.length_append] at hlen
          simpa using hlen
        refine ⟨ds0, (ih ds0).mpr ⟨hlen0, ?_⟩, ?_⟩
        · intro i hi
          rw [← (drawsOf_snoc ds0 j).1 i (by omega)]
          exact hle i (by omega)
        · rw [List.mem_map]
          refine ⟨j, ?_, rfl⟩
          rw [List.mem_range]
          have := hle n (by omega)
          rw [← hlen0, (drawsOf_snoc ds0 j).2] at this
          omega

/-- No draw sequence is listed twice. -/
theorem nodup_drawSeqs (n : Nat) : (drawSeqs n).Nodup := by
  induction n with
  | zero => simp [drawSeqs]
  | succ n ih =>
    unfold drawSeqs
    rw [List.nodup_flatMap]
    constructor
    · intro ds _
      refine List.Nodup.map ?_ (List.nodup_range _)
      intro a b hab
      simpa using hab
    · refine List.Pairwise.imp ?_ ih
      intro a b hab
      intro x hxa hxb
      rw [List.mem_map] at hxa hxb
      obtain ⟨j1, _, rfl⟩ := hxa
      obtain ⟨j2, _, h2⟩ := hxb
      exact hab (List.append_inj' h2 rfl).1.symm


/-- Counting over the draws `0, ..., k` a test that takes one value at draw 0
and another at every other draw. -/
theorem countP_range_succ_head (f : Nat → Bool) (a b : Bool) (k : Nat) (h0 : f 0 = a)
    (hs : ∀ j, 1 ≤ j → j < k + 1 → f j = b) :
    (List.range (k + 1)).countP f = (if a then 1 else 0) + k * (if b then 1 else 0) := by
  rw [List.range_succ_eq_map, List.countP_cons, List.countP_map, h0]
  have hc : (List.range k).countP (f ∘ Nat.succ) = (List.range k).countP (fun _ => b) := by
    apply List.countP_congr
    intro x hx
    rw [List.mem_range] at hx
    simp only [Function.comp_apply]
    rw [hs (x + 1) (by omega) (by omega)]
  rw [hc]
  cases b
  · simp
  · simp
    omega

/-- Counting over all one-draw extensions of the sequences of `L` a test that,
on an extension, holds with value `a` at draw 0 and as `Q` on the old sequence
at every other draw. -/
theorem countP_flatMap_snoc (L : List (List Nat)) (k : Nat) (P Q : List Nat → Bool) (a : Bool)
    (h : ∀ ds ∈ L, ∀ j, j < k + 1 → P (ds ++ [j]) = if j = 0 then a else Q ds) :
    (L.flatMap (fun ds => (List.range (k + 1)).map (fun j => ds ++ [j]))).countP P =
      (if a then 1 else 0) * L.length + k * L.countP Q := by
  induction L with
  | nil => simp
  | cons ds L ih =>
    rw [List.flatMap_cons, List.countP_append, ih (fun d hd => h d (List.mem_cons_of_mem _ hd)),
      List.countP_map, List.countP_cons, List.length_cons]
    rw [countP_range_succ_head (P ∘ fun j => ds ++ [j]) a (Q ds) k]
    · ring
    · simp only [Function.comp_apply]
      rw [h ds (List.mem_cons_self _ _) 0 (by omega), if_pos rfl]
    · intro j hj1 hj2
      simp only [Function.comp_apply]
      rw [h ds (List.mem_cons_self _ _) j hj2, if_neg (by omega)]

/-- The place at index 0 after `k + 1` iterations on an extended draw sequence. -/
theorem head_shuffleSteps_snoc (vs : List Place) (k : Nat) (hk : 1 ≤ k) (hlen : k < vs.length)
    (ds : List Nat) (hds : ds.length = k) (j : Nat) (hj : j < k + 1) :
    (shuffleSteps (drawsOf (ds ++ [j])) vs (k + 1))[0]? =
      if j = 0 then vs[k]? else (shuffleSteps (drawsOf ds) vs k)[0]? := by
  rw [head_shuffleSteps_succ _ vs k hk hlen]
  have h1 : drawsOf (ds ++ [j]) k = j := by
    rw [← hds]
    exact (drawsOf_snoc ds j).2
  have h2 : Intn j (k + 1) = j := Nat.mod_eq_of_lt hj
  rw [h1, h2, shuffleSteps_congr (drawsOf (ds ++ [j])) (drawsOf ds) vs k
    (fun i hi => (drawsOf_snoc ds j).1 i (by omega))]

/-- Among the `k!` outcomes of the first `k ≥ 1` iterations, `(k - 1)!` leave a
given one of the first `k` places at index 0, and none leaves a later place there. -/
theorem countP_head_shuffleSteps (vs : List Place) (hnd : vs.Nodup) (m : Nat)
    (hm : m < vs.length) (k : Nat) (hk1 : 1 ≤ k) (hk : k ≤ vs.length) :
    (drawSeqs k).countP
        (fun ds => decide ((shuffleSteps (drawsOf ds) vs k)[0]? = vs[m]?)) =
      if m < k then (k - 1).factorial else 0 := by
  induction k with
  | zero => omega
  | succ k ih =>
    by_cases hk0 : k = 0
    · subst hk0
      have hseq : drawSeqs (0 + 1) = [[0]] := rfl
      rw [hseq, List.countP_cons, List.countP_nil, head_shuffleSteps_one]
      have h0 : 0 < vs.length := by omega
      by_cases hm0 : m = 0
      · subst hm0
        simp
      · have hne : ¬ vs[0]? = vs[m]? := by
          rw [List.getElem?_eq_getElem h0, List.getElem?_eq_getElem hm]
          intro h
          simp only [Option.some.injEq] at h
          exact hm0 ((List.Nodup.getElem_inj_iff hnd).mp h).symm
        rw [if_neg (by omega : ¬ m < 0 + 1)]
        simp [hne]
    · have hk1' : 1 ≤ k := by omega
      have hklen : k < vs.length := by omega
      unfold drawSeqs
      rw [countP_flatMap_snoc (drawSeqs k) k _
        (fun ds => decide ((shuffleSteps (drawsOf ds) vs k)[0]? = vs[m]?))
        (decide (vs[k]? = vs[m]?))]
      · rw [ih hk1' (by omega), length_drawSeqs]
        by_cases hmk : m < k
        · have hne : ¬ vs[k]? = vs[m]? := by
            rw [List.getElem?_eq_getElem hklen, List.getElem?_eq_getElem hm]
            intro h
            simp only [Option.some.injEq] at h
            have := (List.Nodup.getElem_inj_iff hnd).mp h
            omega
          rw [if_pos hmk, if_pos (by omega : m < k + 1)]
          simp only [hne, decide_False, Bool.false_eq_true, if_false, zero_mul, zero_add]
          have hfac : k = (k - 1) + 1 := by omega
          rw [Nat.add_sub_cancel]
          nth_rewrite 3 [hfac]
          rw [Nat.factorial_succ, ← hfac]
        · rw [if_neg hmk]
          by_cases hmeq : m = k
          · subst hmeq
            simp
          · have hne : ¬ vs[k]? = vs[m]? := by
              rw [List.getElem?_eq_getElem hklen, List.getElem?_eq_getElem hm]
              intro h
              simp only [Option.some.injEq] at h
              have := (List.Nodup.getElem_inj_iff hnd).mp h
              omega
            rw [if_neg (by omega : ¬ m < k + 1)]
            simp [hne]
      · intro ds hds j hj
        have hdl := ((mem_drawSeqs k ds).mp hds).1
        rw [head_shuffleSteps_snoc vs k hk1' hklen ds hdl j hj]
        by_cases hj0 : j = 0
        · rw [if_pos hj0, if_pos hj0]
        · rw [if_neg hj0, if_neg hj0]


/-- C7: for a non-empty slice of `n` pairwise distinct places, the draw
sequences `(j_0, ..., j_{n-1})` with `0 ≤ j_i ≤ i` are listed once each by
`drawSeqs n`, there are `n!` of them, and exactly `(n - 1)!` of them leave any
given place of the slice at index 0 after `sortProposablePlaces`, wherever the
place stands in the input: one outcome in `n`, that is probability `1 / n` under
independent uniform draws. -/
theorem first_place_uniform (vs : List Place) (p : Place) (hnd : vs.Nodup) (hp : p ∈ vs) :
    (drawSeqs vs.length).Nodup ∧
    (∀ ds, ds ∈ drawSeqs vs.length ↔
      ds.length = vs.length ∧ ∀ i, i < vs.length → drawsOf ds i ≤ i) ∧
    (drawSeqs vs.length).length = vs.length.factorial ∧
    (drawsLeavingFirst vs p).length = (vs.length - 1).factorial ∧
    (drawsLeavingFirst vs p).length * vs.length = (drawSeqs vs.length).length := by
  obtain ⟨m, hm, hpm⟩ := List.getElem_of_mem hp
  have hpos : 1 ≤ vs.length := by omega
  have hcount : (drawsLeavingFirst vs p).length = (vs.length - 1).factorial := by
    unfold drawsLeavingFirst sortProposablePlaces
    rw [← List.countP_eq_length_filter, ← hpm, ← List.getElem?_eq_getElem hm,
      countP_head_shuffleSteps vs hnd m hm vs.length hpos (le_refl _), if_pos hm]
  refine ⟨nodup_drawSeqs _, mem_drawSeqs _, length_drawSeqs _, hcount, ?_⟩
  rw [hcount, length_drawSeqs]
  have hfac : vs.length = (vs.length - 1) + 1 := by omega
  nth_rewrite 3 [hfac]
  rw [Nat.factorial_succ, ← hfac]
  ring

/-- Witness of C7: of the `3! = 6` outcomes on three distinct places, `2! = 2`
leave the second place of the input at index 0. -/
theorem first_place_uniform_witness :
    (drawSeqs 3).length = Nat.factorial 3 ∧
      (drawsLeavingFirst [deli, cafe, diner] cafe).length = Nat.factorial 2 :=
  ⟨(first_place_uniform [deli, cafe, diner] cafe (by decide) (by decide)).2.2.1,
   (first_place_uniform [deli, cafe, diner] cafe (by decide) (by decide)).2.2.2.1⟩


end Lunch
